import Mathlib

/-!
Verification development for the `aws-rs` SigV4 signing engine.

Shallow embedding conventions:
* Rust byte strings (`&str` / `String` manipulated through `.as_bytes()`,
  `split`, byte-wise `cmp`, percent-encoding) are modelled as `List Nat`,
  each element a byte value.
* `strBytes` converts an ASCII Lean string literal to its byte list
  (all concrete inputs appearing in the development are ASCII, where the
  UTF-8 bytes coincide with the codepoints).
* Fallible / panicking code is modelled with `Option`: `none` models a
  panic (`unwrap` of an absent value).
* The external crypto primitives (SHA-256, HMAC-SHA256 from openssl) are
  not part of the repository; functions that use them take them as
  explicit function parameters `sha`/`hm`.
* Environment-variable and file reads are modelled as explicit parameters.
-/

namespace Aws

/-- Bytes of an ASCII string literal (codepoint = byte for ASCII). -/
def strBytes (s : String) : List Nat :=
  s.data.map Char.toNat

/-- Byte-wise lexicographic `≤` on byte lists, matching Rust's
`str::cmp` (which compares the underlying UTF-8 bytes). -/
def lexLe : List Nat → List Nat → Bool
  | [], _ => true
  | _ :: _, [] => false
  | a :: as, b :: bs => if a < b then true else if b < a then false else lexLe as bs

/-! ## Percent-encoding (rust-url `FORM_URLENCODED_ENCODE_SET`)

`sort_query_string` calls `percent_encode_to(&[byte], FORM_URLENCODED_ENCODE_SET, output)`
byte by byte.  That encode set is rust-url's table for the WHATWG
`application/x-www-form-urlencoded` percent-encode set: every byte is
percent-encoded (uppercase hex) except ASCII alphanumerics and
`*` (42), `-` (45), `.` (46), `_` (95).  Used through `percent_encode_to`
(not the form serializer), a space encodes as `%20`, never `+` — exactly
why the source rolls its own `byte_serialize` (see its comment). -/

/-- Bytes the `FORM_URLENCODED_ENCODE_SET` leaves untouched:
ASCII alphanumerics and `*`, `-`, `.`, `_`. -/
def formUntouched (b : Nat) : Bool :=
  (48 ≤ b && b ≤ 57) || (65 ≤ b && b ≤ 90) || (97 ≤ b && b ≤ 122) ||
    b == 42 || b == 45 || b == 46 || b == 95

/-- Uppercase hexadecimal digit byte for a nibble. -/
def hexUpper (n : Nat) : Nat :=
  if n < 10 then 48 + n else 55 + n

/-- `percent_encode_to` on a single byte with `FORM_URLENCODED_ENCODE_SET`:
either the byte itself or `%` followed by two uppercase hex digits.
(`b / 16 % 16` is the high nibble of a byte value.) -/
def percentEncodeByte (b : Nat) : List Nat :=
  if formUntouched b then [b]
  else [37, hexUpper (b / 16 % 16), hexUpper (b % 16)]

/-- The source's `byte_serialize`: percent-encode every byte of the input. -/
def byteSerialize (s : List Nat) : List Nat :=
  (s.map percentEncodeByte).flatten

/-! ## Query-string canonicalization (`canonical_query_string`, `sort_query_string`) -/

/-- The `QP` struct of the source: one query parameter. -/
structure QP where
  k : List Nat
  v : List Nat
deriving DecidableEq

/-- Rust `str::split('&')` (byte 38): always at least one token; an empty
input yields one empty token. -/
def splitOnAmp : List Nat → List (List Nat)
  | [] => [[]]
  | b :: rest =>
    match splitOnAmp rest with
    | [] => [[]]
    | t :: ts => if b = 38 then [] :: t :: ts else (b :: t) :: ts

/-- The token-to-`QP` step of `canonical_query_string`:
if the token contains `=` (byte 61), `splitn(1, '=')` splits at the first
`=` only (key = bytes before it, value = everything after, later `=`
included); otherwise the token is the key and the value is empty. -/
def parseToken (q : List Nat) : QP :=
  if q.contains 61 then
    { k := q.takeWhile (fun b => !(b == 61)),
      v := q.drop ((q.takeWhile (fun b => !(b == 61))).length + 1) }
  else
    { k := q, v := [] }

/-- The parsing loop of `canonical_query_string`: split on `&`, then split
each token at its first `=`. -/
def parseQuery (x : List Nat) : List QP :=
  (splitOnAmp x).map parseToken

/-- Stable insertion of a parameter into a key-sorted list: the new
element goes after every existing element whose key is `≤` its own. -/
def insertQP (x : QP) : List QP → List QP
  | [] => [x]
  | y :: ys => if lexLe x.k y.k then x :: y :: ys else y :: insertQP x ys

/-- The `query.sort_by(|a, b| a.k.cmp(b.k))` step: Rust's `sort_by` is a
stable sort by byte-wise key comparison; a stable sort's output is
uniquely determined by the comparator, so stable insertion sort computes
the same list. -/
def sortQP : List QP → List QP
  | [] => []
  | x :: xs => insertQP x (sortQP xs)

/-- One rendered `key=value` pair of the output loop (`=` is byte 61). -/
def renderPair (p : QP) : List Nat :=
  byteSerialize p.k ++ 61 :: byteSerialize p.v

/-- The source's `sort_query_string`: stable-sort by key, then emit
`key=value` pairs, prefixing each with `&` (byte 38) when output is
already non-empty. -/
def sort_query_string (query : List QP) : List Nat :=
  (sortQP query).foldl
    (fun output item =>
      (if 0 < output.length then output ++ [38] else output) ++ renderPair item)
    []

/-- The source's `canonical_query_string`: empty when no query is set,
otherwise parse and sort/encode. -/
def canonical_query_string (query : Option (List Nat)) : List Nat :=
  match query with
  | none => []
  | some x => sort_query_string (parseQuery x)

/-! ## Credentials (`credentials.rs`)

File reads and environment-variable reads are external inputs; they are
passed as explicit parameters: `conf` is the result of parsing the INI
file (`none` when the file is absent or unparsable), a section is an
association list of keys to values, and each environment variable is an
`Option String` (`none` = unset). -/

/-- The `Credentials` struct of `credentials.rs`. -/
structure Credentials where
  key : Option String
  secret : Option String
  path : String
  profile : String
deriving DecidableEq

/-- An INI document: sections (named by profile) of key/value pairs. -/
abbrev Ini : Type := List (String × List (String × String))

/-- `get_default_profile`: `AWS_PROFILE` if set, else `"default"`. -/
def get_default_profile (envProfile : Option String) : String :=
  match envProfile with
  | none => "default"
  | some s => s

/-- `get_profile_path`: `${HOME}/.aws/credentials`, `HOME` defaulting to `/root`. -/
def get_profile_path (envHome : Option String) : String :=
  (match envHome with
   | none => "/root"
   | some s => s) ++ "/.aws/credentials"

/-- `Credentials::new`: empty key and secret, default path and profile
computed from the environment. -/
def Credentials.new (envHome envProfile : Option String) : Credentials :=
  { key := none, secret := none,
    path := get_profile_path envHome,
    profile := get_default_profile envProfile }

/-- `Credentials::load`: read `aws_access_key_id` / `aws_secret_access_key`
from the profile's section when the file parses and the section exists,
then let each set environment variable overwrite its field. -/
def Credentials.load (c : Credentials) (conf : Option Ini)
    (envKey envSecret : Option String) : Credentials :=
  let c :=
    match conf with
    | none => c
    | some ini =>
      match List.lookup c.profile ini with
      | none => c
      | some sec =>
        let c :=
          match List.lookup "aws_access_key_id" sec with
          | none => c
          | some k => { c with key := some k }
        match List.lookup "aws_secret_access_key" sec with
        | none => c
        | some s => { c with secret := some s }
  let c :=
    match envKey with
    | none => c
    | some k => { c with key := some k }
  match envSecret with
  | none => c
  | some s => { c with secret := some s }

/-- What the file alone contributes for a given section key (used to state
the precedence theorem). -/
def fileValue (conf : Option Ini) (prof field : String) : Option String :=
  match conf with
  | none => none
  | some ini =>
    match List.lookup prof ini with
    | none => none
    | some sec => List.lookup field sec

/-! ## Header store (`append_header`, the `headers` BTreeMap)

`BTreeMap<String, Vec<String>>` is modelled as an association list whose
invariant is strictly ascending keys (that is exactly the iteration order
a BTreeMap provides); `append_header`'s `entry` call is the sorted-position
insert below. -/

/-- The `Header` value type from `request.rs` (name and value). -/
structure Header where
  key : List Nat
  value : List Nat

/-- A header store snapshot: key-sorted association list, one ordered
value list per key. -/
abbrev HeaderMap : Type := List (List Nat × List (List Nat))

/-- `to_ascii_lowercase` on one byte: fold `A`–`Z` (65–90) to lowercase. -/
def asciiLowerByte (b : Nat) : Nat :=
  if 65 ≤ b ∧ b ≤ 90 then b + 32 else b

/-- Insert into the sorted association list: before the first strictly
greater key, appended to the value list of an equal key. -/
def mapInsertAppend (key value : List Nat) : HeaderMap → HeaderMap
  | [] => [(key, [value])]
  | (k, vs) :: rest =>
    if lexLe key k then
      if key = k then (k, vs ++ [value]) :: rest
      else (key, [value]) :: (k, vs) :: rest
    else (k, vs) :: mapInsertAppend key value rest

/-- The source's `append_header`: lowercase the name, then vacant entry ↦
fresh one-element value list, occupied entry ↦ push the value. -/
def append_header (map : HeaderMap) (key value : List Nat) : HeaderMap :=
  mapInsertAppend (key.map asciiLowerByte) value map

/-- First-match lookup in the header store (what `headers.get(k)` returns). -/
def mapFind (key : List Nat) : HeaderMap → Option (List (List Nat))
  | [] => none
  | (k, vs) :: rest => if k = key then some vs else mapFind key rest

/-! ## The signer (`SigV4`) -/

/-- The `SigV4` struct.  The `time::Tm` date is modelled by the only two
projections the signer takes of it: its `%Y%m%d` and `%Y%m%dT%H%M%SZ`
`strftime` renderings. -/
structure SigV4 where
  credentials : Option Credentials
  dateShort : List Nat
  dateLong : List Nat
  headers : HeaderMap
  method : Option (List Nat)
  path : Option (List Nat)
  payload : Option (List Nat)
  query : Option (List Nat)
  region : Option (List Nat)
  service : Option (List Nat)

/-- `SigV4::header`: append one header through `append_header`. -/
def SigV4.header (s : SigV4) (h : Header) : SigV4 :=
  { s with headers := append_header s.headers h.key h.value }

/-- `SigV4::date`: append the `X-Amz-Date` header rendered from the date. -/
def SigV4.date (s : SigV4) : SigV4 :=
  { s with headers := append_header s.headers (strBytes "X-Amz-Date") s.dateLong }

/-- `expand_string`: an unset optional field renders as the empty string. -/
def expand_string (val : Option (List Nat)) : List Nat :=
  match val with
  | none => []
  | some x => x

/-- Lowercase hexadecimal digit byte for a nibble (rustc-serialize's
`ToHex` alphabet `0123456789abcdef`). -/
def hexLower (n : Nat) : Nat :=
  if n < 10 then 48 + n else 87 + n

/-- `to_hex`: two lowercase hex digits per byte (high nibble first). -/
def toHex (bs : List Nat) : List Nat :=
  (bs.map (fun b => [hexLower (b / 16 % 16), hexLower (b % 16)])).flatten

/-- `signed_headers`: iterate the store in key order; push `;` (59)
whenever output is non-empty, *then* skip the `authorization` key —
faithfully reproducing the source's loop order. -/
def signed_headers (headers : HeaderMap) : List Nat :=
  headers.foldl
    (fun h kv =>
      let h := if 0 < h.length then h ++ [59] else h
      if kv.1 = strBytes "authorization" then h else h ++ kv.1)
    []

/-- One left-to-right pass of `replace("  ", " ")`: each pair of adjacent
spaces (32) becomes one. -/
def collapseTwoSpaces : List Nat → List Nat
  | 32 :: 32 :: rest => 32 :: collapseTwoSpaces rest
  | b :: rest => b :: collapseTwoSpaces rest
  | [] => []

/-- `str::trim` restricted to ASCII whitespace bytes. -/
def trimSpace (l : List Nat) : List Nat :=
  let ws : Nat → Bool := fun b => b == 32 || (9 ≤ b && b ≤ 13)
  ((l.dropWhile ws).reverse.dropWhile ws).reverse

/-- `canonical_value`: join a key's values with `,` (44); a value starting
with `"` (34) passes through verbatim, any other value has each pair of
adjacent spaces collapsed (one left-to-right pass, as `str::replace`)
and is trimmed. -/
def canonical_value (val : List (List Nat)) : List Nat :=
  val.foldl
    (fun st v =>
      let st := if 0 < st.length then st ++ [44] else st
      if v.head? = some 34 then st ++ v
      else st ++ trimSpace (collapseTwoSpaces v))
    []

/-- `canonical_headers`: iterate the store in key order, skip
`authorization`, emit `key:value\n` (58, 10) per key. -/
def canonical_headers (headers : HeaderMap) : List Nat :=
  headers.foldl
    (fun h kv =>
      if kv.1 = strBytes "authorization" then h
      else h ++ kv.1 ++ 58 :: canonical_value kv.2 ++ [10])
    []

/-- `hashed_payload`: SHA-256 hex of the payload (empty if unset);
`sha` is the external SHA-256 primitive. -/
def hashed_payload (sha : List Nat → List Nat) (s : SigV4) : List Nat :=
  toHex (sha (expand_string s.payload))

/-- `canonical_request`: the six newline-separated fields. -/
def canonical_request (sha : List Nat → List Nat) (s : SigV4) : List Nat :=
  expand_string s.method ++ 10 :: expand_string s.path ++
    10 :: canonical_query_string s.query ++
    10 :: canonical_headers s.headers ++
    10 :: signed_headers s.headers ++
    10 :: hashed_payload sha s

/-- `hashed_canonical_request`: SHA-256 hex of the canonical request. -/
def hashed_canonical_request (sha : List Nat → List Nat) (s : SigV4) : List Nat :=
  toHex (sha (canonical_request sha s))

/-- `credential_scope`: `YYYYMMDD/region/service/aws4_request` (47 = `/`). -/
def credential_scope (s : SigV4) : List Nat :=
  s.dateShort ++ 47 :: expand_string s.region ++
    47 :: expand_string s.service ++ strBytes "/aws4_request"

/-- `signing_string`: algorithm tag, timestamp, scope, hashed request. -/
def signing_string (sha : List Nat → List Nat) (s : SigV4) : List Nat :=
  strBytes "AWS4-HMAC-SHA256" ++ 10 :: s.dateLong ++
    10 :: credential_scope s ++ 10 :: hashed_canonical_request sha s

/-- `derived_signing_key`: the HMAC-SHA256 chain, keyed first by
`"AWS4" ++ secret`.  `hm key data` is the external HMAC-SHA256 primitive.
The source's `credentials.unwrap().secret.unwrap()` panics when either
option is absent; `none` models that panic. -/
def derived_signing_key (hm : List Nat → List Nat → List Nat) (s : SigV4) :
    Option (List Nat) :=
  match s.credentials with
  | none => none
  | some c =>
    match c.secret with
    | none => none
    | some sec =>
      let kDate := hm (strBytes ("AWS4" ++ sec)) s.dateShort
      let kRegion := hm kDate (expand_string s.region)
      let kService := hm kRegion (expand_string s.service)
      some (hm kService (strBytes "aws4_request"))

/-- `signature`: hex of HMAC-SHA256 of the signing string under the
derived key; propagates the derivation's panic. -/
def signature (sha : List Nat → List Nat) (hm : List Nat → List Nat → List Nat)
    (s : SigV4) : Option (List Nat) :=
  (derived_signing_key hm s).map (fun dk => toHex (hm dk (signing_string sha s)))

/-! ## Auxiliary definitions used only to state and prove the theorems -/

/-- Joining tokens with `&` (38): the shape `sort_query_string`'s output
loop produces when every token is non-empty. -/
def ampJoin : List (List Nat) → List Nat
  | [] => []
  | t :: ts => t ++ (ts.map (fun u => 38 :: u)).flatten

/-- Lowercase hexadecimal digit bytes (`0`–`9`, `a`–`f`). -/
def isLowerHexDigit (b : Nat) : Bool :=
  (48 ≤ b && b ≤ 57) || (97 ≤ b && b ≤ 102)

/-- Uppercase hexadecimal digit bytes (`0`–`9`, `A`–`F`). -/
def isUpperHexDigit (b : Nat) : Bool :=
  (48 ≤ b && b ≤ 57) || (65 ≤ b && b ≤ 70)

/-- Modelled from the claim's words (for refutation): the unreserved set
the claim says is left unencoded — ALPHA / DIGIT / `-` / `.` / `_` / `~`. -/
def claimUnreserved (b : Nat) : Bool :=
  (48 ≤ b && b ≤ 57) || (65 ≤ b && b ≤ 90) || (97 ≤ b && b ≤ 122) ||
    b == 45 || b == 46 || b == 95 || b == 126

/-- The header-store invariant: keys strictly ascending in byte order
(exactly a `BTreeMap`'s iteration order). -/
def keysSorted (m : HeaderMap) : Prop :=
  List.Pairwise (fun a b => lexLe a.1 b.1 = true ∧ a.1 ≠ b.1) m

/-- The header-store invariant: every stored key is already lowercase. -/
def keysLower (m : HeaderMap) : Prop :=
  ∀ x ∈ m, x.1.map asciiLowerByte = x.1

/-- A concrete resolved credential pair (exercises theorems at one input). -/
def sampleCreds : Credentials :=
  { key := some "ak", secret := some "sek",
    path := "/root/.aws/credentials", profile := "default" }

/-- A concrete signing context carrying `sampleCreds`. -/
def sampleCtx : SigV4 :=
  { credentials := some sampleCreds, dateShort := strBytes "20110909",
    dateLong := strBytes "20110909T233600Z", headers := [], method := none,
    path := none, payload := none, query := none, region := none,
    service := none }

/-- A concrete signing context with no credentials attached. -/
def emptyCtx : SigV4 :=
  { credentials := none, dateShort := [], dateLong := [], headers := [],
    method := none, path := none, payload := none, query := none,
    region := none, service := none }

/-- A stand-in for the external SHA-256 primitive (32-byte digests). -/
def dummySha : List Nat → List Nat := fun _ => List.replicate 32 0

/-- A stand-in for the external HMAC-SHA256 primitive (32-byte digests). -/
def dummyHm : List Nat → List Nat → List Nat := fun _ _ => List.replicate 32 0

/-! # Theorems -/

/-! ## Byte-wise lexicographic order -/

theorem lexLe_cons {a b : Nat} {as bs : List Nat} :
    lexLe (a :: as) (b :: bs) = true ↔ a < b ∨ (a = b ∧ lexLe as bs = true) := by
  simp only [lexLe]
  by_cases h1 : a < b
  · simp [h1]
  · by_cases h2 : b < a
    · simp [h1, h2]; omega
    · have : a = b := by omega
      simp [h1, h2, this]

theorem lexLe_refl (a : List Nat) : lexLe a a = true := by
  induction a with
  | nil => rfl
  | cons x xs ih => rw [lexLe_cons]; exact Or.inr ⟨rfl, ih⟩

theorem lexLe_total (a b : List Nat) : lexLe a b = true ∨ lexLe b a = true := by
  induction a generalizing b with
  | nil => exact Or.inl rfl
  | cons x xs ih =>
    cases b with
    | nil => exact Or.inr rfl
    | cons y ys =>
      rcases Nat.lt_trichotomy x y with h | h | h
      · exact Or.inl (lexLe_cons.mpr (Or.inl h))
      · rcases ih ys with h2 | h2
        · exact Or.inl (lexLe_cons.mpr (Or.inr ⟨h, h2⟩))
        · exact Or.inr (lexLe_cons.mpr (Or.inr ⟨h.symm, h2⟩))
      · exact Or.inr (lexLe_cons.mpr (Or.inl h))

theorem lexLe_trans {a b c : List Nat} (hab : lexLe a b = true) (hbc : lexLe b c = true) :
    lexLe a c = true := by
  induction a generalizing b c with
  | nil => rfl
  | cons x xs ih =>
    cases b with
    | nil => simp [lexLe] at hab
    | cons y ys =>
      cases c with
      | nil => simp [lexLe] at hbc
      | cons z zs =>
        rcases lexLe_cons.mp hab with h1 | ⟨h1, h1'⟩ <;>
          rcases lexLe_cons.mp hbc with h2 | ⟨h2, h2'⟩ <;>
            refine lexLe_cons.mpr ?_
        · exact Or.inl (Nat.lt_trans h1 h2)
        · exact Or.inl (h2 ▸ h1)
        · exact Or.inl (h1 ▸ h2)
        · exact Or.inr ⟨h1.trans h2, ih h1' h2'⟩

theorem lexLe_antisymm {a b : List Nat} (hab : lexLe a b = true) (hba : lexLe b a = true) :
    a = b := by
  induction a generalizing b with
  | nil =>
    cases b with
    | nil => rfl
    | cons y ys => simp [lexLe] at hba
  | cons x xs ih =>
    cases b with
    | nil => simp [lexLe] at hab
    | cons y ys =>
      rcases lexLe_cons.mp hab with h1 | ⟨h1, h1'⟩ <;>
        rcases lexLe_cons.mp hba with h2 | ⟨h2, h2'⟩ <;> try omega
      rw [h1, ih h1' h2']

theorem lexLe_of_not_lexLe {a b : List Nat} (h : lexLe a b = false) : lexLe b a = true := by
  rcases lexLe_total a b with h1 | h1
  · rw [h1] at h; cases h
  · exact h1

theorem ne_of_not_lexLe {a b : List Nat} (h : lexLe a b = false) : a ≠ b := by
  intro he; rw [he, lexLe_refl] at h; cases h

/-! ## The stable sort of `sort_query_string` -/

theorem insertQP_perm (x : QP) (l : List QP) : (insertQP x l).Perm (x :: l) := by
  induction l with
  | nil => exact List.Perm.refl _
  | cons y ys ih =>
    by_cases h : lexLe x.k y.k = true
    · simp [insertQP, h]
    · simp only [insertQP, h, if_false]
      exact (ih.cons y).trans (List.Perm.swap x y ys)

theorem sortQP_perm (l : List QP) : (sortQP l).Perm l := by
  induction l with
  | nil => exact List.Perm.refl _
  | cons x xs ih => exact (insertQP_perm x (sortQP xs)).trans (ih.cons x)

theorem mem_sortQP {p : QP} {l : List QP} : p ∈ sortQP l ↔ p ∈ l :=
  (sortQP_perm l).mem_iff

theorem sortQP_ne_nil {l : List QP} (h : l ≠ []) : sortQP l ≠ [] := by
  intro h0
  exact h (((sortQP_perm l).symm.trans (h0 ▸ List.Perm.refl [])).eq_nil)

theorem mem_insertQP {z x : QP} {l : List QP} : z ∈ insertQP x l ↔ z = x ∨ z ∈ l := by
  rw [(insertQP_perm x l).mem_iff, List.mem_cons]

/-- Keys ascend (weakly) along the list. -/
def keyAscending (l : List QP) : Prop :=
  List.Pairwise (fun a b : QP => lexLe a.k b.k = true) l

theorem insertQP_ascending {x : QP} {l : List QP} (h : keyAscending l) :
    keyAscending (insertQP x l) := by
  induction l with
  | nil => simp [insertQP, keyAscending]
  | cons y ys ih =>
    rcases h with _ | ⟨h1, h2⟩
    by_cases c : lexLe x.k y.k = true
    · rw [keyAscending, insertQP, if_pos c]
      refine List.Pairwise.cons ?_ (List.Pairwise.cons h1 h2)
      intro z hz
      rcases List.mem_cons.mp hz with rfl | hz
      · exact c
      · exact lexLe_trans c (h1 z hz)
    · simp only [insertQP, c, if_false]
      refine List.Pairwise.cons ?_ (ih h2)
      intro z hz
      rcases mem_insertQP.mp hz with rfl | hz
      · exact lexLe_of_not_lexLe (Bool.not_eq_true _ ▸ c)
      · exact h1 z hz

theorem sortQP_ascending (l : List QP) : keyAscending (sortQP l) := by
  induction l with
  | nil => exact List.Pairwise.nil
  | cons x xs ih => exact insertQP_ascending ih

theorem sortQP_eq_self {l : List QP} (h : keyAscending l) : sortQP l = l := by
  induction l with
  | nil => rfl
  | cons x xs ih =>
    rcases h with _ | ⟨h1, h2⟩
    rw [sortQP, ih h2]
    cases xs with
    | nil => rfl
    | cons y ys => simp [insertQP, h1 y (List.mem_cons_self y ys)]

theorem filter_insertQP_eq {x : QP} {l : List QP} {k : List Nat} (hk : x.k = k) :
    (insertQP x l).filter (fun p => decide (p.k = k)) =
      x :: l.filter (fun p => decide (p.k = k)) := by
  induction l with
  | nil => simp [insertQP, List.filter, hk]
  | cons y ys ih =>
    by_cases c : lexLe x.k y.k = true
    · rw [insertQP, if_pos c]
      simp [List.filter_cons, hk]
    · have hy : y.k ≠ k := by
        intro he
        rw [hk, ← he, lexLe_refl] at c
        exact c rfl
      simp [insertQP, c, List.filter_cons, hy, ih]

theorem filter_insertQP_ne {x : QP} {l : List QP} {k : List Nat} (hk : x.k ≠ k) :
    (insertQP x l).filter (fun p => decide (p.k = k)) =
      l.filter (fun p => decide (p.k = k)) := by
  induction l with
  | nil => simp [insertQP, List.filter, hk]
  | cons y ys ih =>
    by_cases c : lexLe x.k y.k = true
    · simp [insertQP, c, List.filter_cons, hk]
    · simp only [insertQP, c, if_false, List.filter_cons]
      by_cases hy : y.k = k
      · simp [hy, ih]
      · simp [hy, ih]

/-- Stability of the sort: filtering by any single key returns the
parameters with that key in their original order. -/
theorem sortQP_filter_key (l : List QP) (k : List Nat) :
    (sortQP l).filter (fun p => decide (p.k = k)) =
      l.filter (fun p => decide (p.k = k)) := by
  induction l with
  | nil => rfl
  | cons x xs ih =>
    by_cases hx : x.k = k
    · rw [sortQP, filter_insertQP_eq hx, ih, List.filter_cons, if_pos (by simp [hx])]
    · rw [sortQP, filter_insertQP_ne hx, ih, List.filter_cons, if_neg (by simp [hx])]

/-! ## Splitting on `&` and the output join -/

theorem splitOnAmp_ne_nil (s : List Nat) : splitOnAmp s ≠ [] := by
  cases s with
  | nil => simp [splitOnAmp]
  | cons b rest =>
    cases h : splitOnAmp rest with
    | nil => simp [splitOnAmp, h]
    | cons t ts =>
      by_cases hb : b = 38 <;> simp [splitOnAmp, h, hb]

theorem splitOnAmp_append {t : List Nat} (u : List Nat) (ht : 38 ∉ t)
    {w : List Nat} {ws : List (List Nat)} (hu : splitOnAmp u = w :: ws) :
    splitOnAmp (t ++ u) = (t ++ w) :: ws := by
  induction t with
  | nil => simpa using hu
  | cons b t' ih =>
    have hb : b ≠ 38 := fun he => ht (he ▸ List.mem_cons_self b t')
    have ht' : 38 ∉ t' := fun hm => ht (List.mem_cons_of_mem b hm)
    rw [List.cons_append, splitOnAmp, ih ht']
    simp [hb]

theorem splitOnAmp_cons_amp (u : List Nat) :
    splitOnAmp (38 :: u) = [] :: splitOnAmp u := by
  cases h : splitOnAmp u with
  | nil => exact absurd h (splitOnAmp_ne_nil u)
  | cons w ws => simp [splitOnAmp, h]

theorem splitOnAmp_no_amp {t : List Nat} (ht : 38 ∉ t) : splitOnAmp t = [t] := by
  have := @splitOnAmp_append t [] ht [] [] rfl
  simpa using this

theorem splitOnAmp_ampJoin {w : List Nat} {ts : List (List Nat)}
    (h : ∀ t ∈ w :: ts, 38 ∉ t) :
    splitOnAmp (ampJoin (w :: ts)) = w :: ts := by
  induction ts generalizing w with
  | nil =>
    rw [ampJoin]
    simpa using splitOnAmp_no_amp (h w (List.mem_cons_self w []))
  | cons t ts' ih =>
    have hw : 38 ∉ w := h w (List.mem_cons_self _ _)
    have hrest : ∀ x ∈ t :: ts', 38 ∉ x := fun x hx => h x (List.mem_cons_of_mem w hx)
    have hjoin : ampJoin (w :: t :: ts') = w ++ 38 :: ampJoin (t :: ts') := by
      simp [ampJoin]
    rw [hjoin, splitOnAmp_append _ hw (splitOnAmp_cons_amp (ampJoin (t :: ts')))]
    rw [ih hrest]
    simp

theorem mem_ampJoin {ts : List (List Nat)} {t : List Nat} {x : Nat}
    (ht : t ∈ ts) (hx : x ∈ t) : x ∈ ampJoin ts := by
  cases ts with
  | nil => cases ht
  | cons w ws =>
    rw [ampJoin, List.mem_append]
    rcases List.mem_cons.mp ht with rfl | ht'
    · exact Or.inl hx
    · exact Or.inr (List.mem_flatten.mpr
        ⟨38 :: t, List.mem_map.mpr ⟨t, ht', rfl⟩, List.mem_cons_of_mem 38 hx⟩)

theorem mem_ampJoin_decompose {ts : List (List Nat)} {x : Nat}
    (h : x ∈ ampJoin ts) : x = 38 ∨ ∃ t ∈ ts, x ∈ t := by
  cases ts with
  | nil => cases h
  | cons w ws =>
    rw [ampJoin, List.mem_append] at h
    rcases h with h | h
    · exact Or.inr ⟨w, List.mem_cons_self _ _, h⟩
    · rcases List.mem_flatten.mp h with ⟨l, hl, hxl⟩
      rcases List.mem_map.mp hl with ⟨t, ht, rfl⟩
      rcases List.mem_cons.mp hxl with rfl | hxt
      · exact Or.inl rfl
      · exact Or.inr ⟨t, List.mem_cons_of_mem w ht, hxt⟩

theorem renderPair_ne_nil (p : QP) : renderPair p ≠ [] := by
  simp [renderPair]

/-- The output loop of `sort_query_string` produces the `&`-join of the
rendered pairs (each rendered pair is non-empty, so the `output.len() > 0`
test is equivalent to "not the first pair"). -/
theorem sort_query_string_eq_ampJoin (query : List QP) :
    sort_query_string query = ampJoin ((sortQP query).map renderPair) := by
  have step : ∀ (items : List QP) (acc : List Nat), acc ≠ [] →
      items.foldl
        (fun output item =>
          (if 0 < output.length then output ++ [38] else output) ++ renderPair item)
        acc = acc ++ (items.map (fun p => 38 :: renderPair p)).flatten := by
    intro items
    induction items with
    | nil => intro acc _; simp
    | cons p rest ih =>
      intro acc hacc
      have hlen : 0 < acc.length := List.length_pos.mpr hacc
      rw [List.foldl_cons, if_pos hlen, ih (acc ++ [38] ++ renderPair p) (by simp)]
      simp
  rw [sort_query_string]
  cases h : sortQP query with
  | nil => rfl
  | cons p rest =>
    rw [List.foldl_cons, if_neg (by simp), List.nil_append,
      step rest (renderPair p) (renderPair_ne_nil p), List.map_cons, ampJoin,
      List.map_map]
    rfl

theorem canonical_query_string_some (x : List Nat) :
    canonical_query_string (some x) = ampJoin ((sortQP (parseQuery x)).map renderPair) := by
  rw [canonical_query_string, sort_query_string_eq_ampJoin]

/-! ## Token parsing -/

theorem takeWhileNe_append {k v : List Nat} (hk : 61 ∉ k) :
    (k ++ 61 :: v).takeWhile (fun b => !(b == 61)) = k := by
  induction k with
  | nil => simp [List.takeWhile_cons]
  | cons x xs ih =>
    have hx : x ≠ 61 := fun he => hk (he ▸ List.mem_cons_self x xs)
    have hxs : 61 ∉ xs := fun hm => hk (List.mem_cons_of_mem x hm)
    simp [List.takeWhile_cons, hx, ih hxs]

theorem parseToken_append {k v : List Nat} (hk : 61 ∉ k) :
    parseToken (k ++ 61 :: v) = { k := k, v := v } := by
  have hc : (k ++ 61 :: v).contains 61 = true := by simp
  have hd : (k ++ 61 :: v).drop (k.length + 1) = v := by
    have he : k ++ 61 :: v = (k ++ [61]) ++ v := by simp
    have hl : (k ++ [61]).length = k.length + 1 := by simp
    rw [he, ← hl, List.drop_left]
  rw [parseToken, if_pos hc, takeWhileNe_append hk, hd]

theorem parseToken_no_eq {t : List Nat} (ht : 61 ∉ t) :
    parseToken t = { k := t, v := [] } := by
  have hc : ¬((t.contains 61) = true) := by simpa using ht
  rw [parseToken, if_neg hc]

theorem parseQuery_ne_nil (x : List Nat) : parseQuery x ≠ [] := by
  rw [parseQuery]
  simpa using splitOnAmp_ne_nil x

/-! ## Percent-encoding lemmas -/

theorem byteSerialize_cons (b : Nat) (bs : List Nat) :
    byteSerialize (b :: bs) = percentEncodeByte b ++ byteSerialize bs := by
  simp [byteSerialize]

theorem byteSerialize_untouched {s : List Nat} (h : ∀ b ∈ s, formUntouched b = true) :
    byteSerialize s = s := by
  induction s with
  | nil => rfl
  | cons b bs ih =>
    rw [byteSerialize_cons, percentEncodeByte, if_pos (h b (List.mem_cons_self b bs)),
      ih (fun x hx => h x (List.mem_cons_of_mem b hx))]
    rfl

theorem mem_byteSerialize_37 {s : List Nat} {b : Nat} (hb : b ∈ s)
    (hu : formUntouched b = false) : 37 ∈ byteSerialize s := by
  have h37 : 37 ∈ percentEncodeByte b := by
    rw [percentEncodeByte, if_neg (by simp [hu])]
    exact List.mem_cons_self _ _
  exact List.mem_flatten.mpr ⟨percentEncodeByte b, List.mem_map.mpr ⟨b, hb, rfl⟩, h37⟩

theorem mem_percentEncodeByte {b x : Nat} (h : x ∈ percentEncodeByte b) :
    (formUntouched x = true ∧ x = b) ∨ x = 37 ∨ isUpperHexDigit x = true := by
  by_cases hu : formUntouched b = true
  · rw [percentEncodeByte, if_pos hu] at h
    rcases List.mem_singleton.mp h with rfl
    exact Or.inl ⟨hu, rfl⟩
  · rw [percentEncodeByte, if_neg hu] at h
    have hhex : ∀ n, n < 16 → isUpperHexDigit (hexUpper n) = true := by decide
    simp only [List.mem_cons, List.not_mem_nil, or_false] at h
    rcases h with rfl | rfl | rfl
    · exact Or.inr (Or.inl rfl)
    · exact Or.inr (Or.inr (hhex _ (Nat.mod_lt _ (by omega))))
    · exact Or.inr (Or.inr (hhex _ (Nat.mod_lt _ (by omega))))

theorem mem_byteSerialize_decompose {s : List Nat} {x : Nat}
    (h : x ∈ byteSerialize s) :
    formUntouched x = true ∨ x = 37 ∨ isUpperHexDigit x = true := by
  rcases List.mem_flatten.mp h with ⟨l, hl, hxl⟩
  rcases List.mem_map.mp hl with ⟨b, _, rfl⟩
  rcases mem_percentEncodeByte hxl with ⟨hu, _⟩ | h
  · exact Or.inl hu
  · exact Or.inr h

/-! ## Hex rendering (`to_hex`) -/

theorem toHex_cons (b : Nat) (bs : List Nat) :
    toHex (b :: bs) = hexLower (b / 16 % 16) :: hexLower (b % 16) :: toHex bs := by
  simp [toHex]

theorem toHex_length (bs : List Nat) : (toHex bs).length = 2 * bs.length := by
  induction bs with
  | nil => rfl
  | cons b bs ih =>
    rw [toHex_cons]
    simp only [List.length_cons, ih]
    omega

theorem mem_toHex_isLowerHex {bs : List Nat} {x : Nat} (h : x ∈ toHex bs) :
    isLowerHexDigit x = true := by
  have hhex : ∀ n, n < 16 → isLowerHexDigit (hexLower n) = true := by decide
  induction bs with
  | nil => cases h
  | cons b rest ih =>
    rw [toHex_cons] at h
    rcases List.mem_cons.mp h with rfl | h'
    · exact hhex _ (Nat.mod_lt _ (by omega))
    · rcases List.mem_cons.mp h' with rfl | h''
      · exact hhex _ (Nat.mod_lt _ (by omega))
      · exact ih h''

/-! ## Canonical query string: non-emptiness and conditional idempotence -/

theorem canon_some_ne_nil (q : List Nat) : canonical_query_string (some q) ≠ [] := by
  rw [canonical_query_string_some]
  rcases List.exists_cons_of_ne_nil (sortQP_ne_nil (parseQuery_ne_nil q)) with ⟨p, L', hL⟩
  rw [hL, List.map_cons, ampJoin]
  intro h
  exact renderPair_ne_nil p (List.append_eq_nil.mp h).1

theorem canon_idempotent {q : List Nat}
    (h37 : 37 ∉ canonical_query_string (some q)) :
    canonical_query_string (some (canonical_query_string (some q))) =
      canonical_query_string (some q) := by
  have hcanon : canonical_query_string (some q) =
      ampJoin ((sortQP (parseQuery q)).map renderPair) :=
    canonical_query_string_some q
  set L := sortQP (parseQuery q) with hLdef
  -- with no `%` in the output, every key and value byte is untouched
  have huntouched : ∀ p ∈ L,
      (∀ b ∈ p.k, formUntouched b = true) ∧ (∀ b ∈ p.v, formUntouched b = true) := by
    intro p hp
    constructor
    · intro b hb
      by_contra hbu
      have hbu' : formUntouched b = false := by
        revert hbu; cases formUntouched b <;> simp
      have h1 : 37 ∈ renderPair p := by
        rw [renderPair]
        exact List.mem_append.mpr (Or.inl (mem_byteSerialize_37 hb hbu'))
      exact h37 (hcanon ▸ mem_ampJoin (List.mem_map.mpr ⟨p, hp, rfl⟩) h1)
    · intro b hb
      by_contra hbu
      have hbu' : formUntouched b = false := by
        revert hbu; cases formUntouched b <;> simp
      have h1 : 37 ∈ renderPair p := by
        rw [renderPair]
        exact List.mem_append.mpr
          (Or.inr (List.mem_cons_of_mem 61 (mem_byteSerialize_37 hb hbu')))
      exact h37 (hcanon ▸ mem_ampJoin (List.mem_map.mpr ⟨p, hp, rfl⟩) h1)
  -- hence encoding is the identity on every pair
  have hmapeq : L.map renderPair = L.map (fun p => p.k ++ 61 :: p.v) := by
    refine List.map_congr_left ?_
    intro p hp
    rw [renderPair, byteSerialize_untouched (huntouched p hp).1,
      byteSerialize_untouched (huntouched p hp).2]
  -- the rendered output re-parses to exactly L
  have hnoamp : ∀ t ∈ L.map (fun p => p.k ++ 61 :: p.v), 38 ∉ t := by
    intro t ht
    rcases List.mem_map.mp ht with ⟨p, hp, rfl⟩
    intro hmem
    rcases List.mem_append.mp hmem with h | h
    · exact absurd ((huntouched p hp).1 38 h) (by decide)
    · rcases List.mem_cons.mp h with h61 | h
      · exact absurd h61 (by decide)
      · exact absurd ((huntouched p hp).2 38 h) (by decide)
  rcases List.exists_cons_of_ne_nil
    (sortQP_ne_nil (parseQuery_ne_nil q) : L ≠ []) with ⟨p0, L', hL⟩
  rw [← hLdef] at hL
  have hparse : parseQuery (canonical_query_string (some q)) = L := by
    have hsplit : splitOnAmp (ampJoin (List.map (fun p => p.k ++ 61 :: p.v) L)) =
        List.map (fun p => p.k ++ 61 :: p.v) L := by
      rw [hL, List.map_cons]
      refine splitOnAmp_ampJoin ?_
      intro t ht
      refine hnoamp t ?_
      rw [hL, List.map_cons]
      exact ht
    have hgen : List.map parseToken (List.map (fun p => p.k ++ 61 :: p.v) L) = L := by
      rw [List.map_map]
      refine (List.map_congr_left ?_).trans (List.map_id L)
      intro p hp
      have hk61 : 61 ∉ p.k := fun hm =>
        absurd ((huntouched p hp).1 61 hm) (by decide)
      show parseToken (p.k ++ 61 :: p.v) = p
      rw [parseToken_append hk61]
    rw [hcanon, hmapeq, parseQuery, hsplit]
    exact hgen
  rw [canonical_query_string_some (canonical_query_string (some q)), hparse,
    sortQP_eq_self (hLdef ▸ sortQP_ascending (parseQuery q)), ← hcanon]

/-! ## Header store -/

theorem asciiLowerByte_idem (b : Nat) :
    asciiLowerByte (asciiLowerByte b) = asciiLowerByte b := by
  simp only [asciiLowerByte]
  split_ifs <;> omega

theorem lowerKey_idem (k : List Nat) :
    (k.map asciiLowerByte).map asciiLowerByte = k.map asciiLowerByte := by
  rw [List.map_map]
  exact List.map_congr_left (fun b _ => asciiLowerByte_idem b)

theorem mem_mapInsertAppend_key {key value : List Nat} {m : HeaderMap}
    {x : List Nat × List (List Nat)} (h : x ∈ mapInsertAppend key value m) :
    x.1 = key ∨ x.1 ∈ m.map Prod.fst := by
  induction m with
  | nil =>
    rcases List.mem_singleton.mp h with rfl
    exact Or.inl rfl
  | cons e rest ih =>
    obtain ⟨k, vs⟩ := e
    by_cases c1 : lexLe key k = true
    · by_cases c2 : key = k
      · rw [mapInsertAppend, if_pos c1, if_pos c2] at h
        rcases List.mem_cons.mp h with rfl | h'
        · exact Or.inr (by simp)
        · exact Or.inr (List.mem_map.mpr ⟨x, List.mem_cons_of_mem _ h', rfl⟩)
      · rw [mapInsertAppend, if_pos c1, if_neg c2] at h
        rcases List.mem_cons.mp h with rfl | h'
        · exact Or.inl rfl
        · exact Or.inr (List.mem_map.mpr ⟨x, h', rfl⟩)
    · rw [mapInsertAppend, if_neg c1] at h
      rcases List.mem_cons.mp h with rfl | h'
      · exact Or.inr (by simp)
      · rcases ih h' with h'' | h''
        · exact Or.inl h''
        · rcases List.mem_map.mp h'' with ⟨y, hy, hxy⟩
          exact Or.inr (List.mem_map.mpr ⟨y, List.mem_cons_of_mem _ hy, hxy⟩)

theorem mapInsertAppend_sorted {key value : List Nat} {m : HeaderMap}
    (hs : keysSorted m) : keysSorted (mapInsertAppend key value m) := by
  induction m with
  | nil => simp [mapInsertAppend, keysSorted]
  | cons e rest ih =>
    obtain ⟨k, vs⟩ := e
    rcases hs with _ | ⟨h1, h2⟩
    by_cases c1 : lexLe key k = true
    · by_cases c2 : key = k
      · rw [keysSorted, mapInsertAppend, if_pos c1, if_pos c2]
        exact List.Pairwise.cons h1 h2
      · rw [keysSorted, mapInsertAppend, if_pos c1, if_neg c2]
        refine List.Pairwise.cons ?_ (List.Pairwise.cons h1 h2)
        intro x hx
        rcases List.mem_cons.mp hx with rfl | hx'
        · exact ⟨c1, c2⟩
        · have hk := h1 x hx'
          refine ⟨lexLe_trans c1 hk.1, fun he => c2 (lexLe_antisymm c1 ?_)⟩
          have he' : key = x.1 := he
          rw [he']
          exact hk.1
    · have c1' : lexLe key k = false := by
        revert c1; cases lexLe key k <;> simp
      rw [keysSorted, mapInsertAppend, if_neg c1]
      refine List.Pairwise.cons ?_ (ih h2)
      intro x hx
      rcases mem_mapInsertAppend_key hx with h | h
      · rw [h]
        exact ⟨lexLe_of_not_lexLe c1', (ne_of_not_lexLe c1').symm⟩
      · rcases List.mem_map.mp h with ⟨y, hy, hxy⟩
        rw [← hxy]
        exact ⟨(h1 y hy).1, (h1 y hy).2⟩

theorem append_header_sorted {m : HeaderMap} {key value : List Nat}
    (hs : keysSorted m) : keysSorted (append_header m key value) :=
  mapInsertAppend_sorted hs

theorem append_header_keysLower {m : HeaderMap} {key value : List Nat}
    (hl : keysLower m) : keysLower (append_header m key value) := by
  intro x hx
  rcases mem_mapInsertAppend_key hx with h | h
  · rw [h]; exact lowerKey_idem key
  · rcases List.mem_map.mp h with ⟨y, hy, hxy⟩
    rw [← hxy]; exact hl y hy

theorem mapFind_nil (key : List Nat) : mapFind key [] = none := rfl

theorem mapFind_cons (key k : List Nat) (vs : List (List Nat)) (rest : HeaderMap) :
    mapFind key ((k, vs) :: rest) = if k = key then some vs else mapFind key rest := rfl

theorem mapFind_eq_none {key : List Nat} {m : HeaderMap}
    (h : ∀ x ∈ m, x.1 ≠ key) : mapFind key m = none := by
  induction m with
  | nil => rfl
  | cons e rest ih =>
    obtain ⟨k, vs⟩ := e
    rw [mapFind_cons, if_neg (h (k, vs) (List.mem_cons_self _ _))]
    exact ih (fun x hx => h x (List.mem_cons_of_mem _ hx))

theorem mapFind_insert_self {key value : List Nat} {m : HeaderMap}
    (hs : keysSorted m) :
    mapFind key (mapInsertAppend key value m) =
      some ((mapFind key m).getD [] ++ [value]) := by
  induction m with
  | nil => simp [mapInsertAppend, mapFind]
  | cons e rest ih =>
    obtain ⟨k, vs⟩ := e
    rcases hs with _ | ⟨h1, h2⟩
    by_cases c1 : lexLe key k = true
    · by_cases c2 : key = k
      · rw [mapInsertAppend, if_pos c1, if_pos c2, mapFind_cons, if_pos c2.symm,
          mapFind_cons, if_pos c2.symm]
        rfl
      · rw [mapInsertAppend, if_pos c1, if_neg c2, mapFind_cons, if_pos rfl,
          mapFind_cons, if_neg (fun he => c2 he.symm)]
        have hnone : mapFind key rest = none :=
          mapFind_eq_none (fun x hx he => c2 (lexLe_antisymm c1 (he ▸ (h1 x hx).1)))
        rw [hnone]
        rfl
    · have c1' : lexLe key k = false := by
        revert c1; cases lexLe key k <;> simp
      have hkk : k ≠ key := (ne_of_not_lexLe c1').symm
      rw [mapInsertAppend, if_neg c1, mapFind_cons, if_neg hkk,
        mapFind_cons, if_neg hkk]
      exact ih h2

theorem mapFind_insert_other {key value k' : List Nat} {m : HeaderMap}
    (hne : k' ≠ key) :
    mapFind k' (mapInsertAppend key value m) = mapFind k' m := by
  induction m with
  | nil =>
    rw [mapInsertAppend, mapFind_cons, if_neg (fun he => hne he.symm)]
  | cons e rest ih =>
    obtain ⟨k, vs⟩ := e
    by_cases c1 : lexLe key k = true
    · by_cases c2 : key = k
      · have hk : k ≠ k' := fun he => hne ((he ▸ c2) : key = k').symm
        rw [mapInsertAppend, if_pos c1, if_pos c2, mapFind_cons, if_neg hk,
          mapFind_cons, if_neg hk]
      · rw [mapInsertAppend, if_pos c1, if_neg c2, mapFind_cons,
          if_neg (fun he => hne he.symm)]
    · rw [mapInsertAppend, if_neg c1, mapFind_cons, mapFind_cons]
      by_cases ck : k = k'
      · rw [if_pos ck, if_pos ck]
      · rw [if_neg ck, if_neg ck]
        exact ih

/-! ## Classification of canonical-query-string output bytes -/

theorem canon_byte_classes {q : List Nat} {b : Nat}
    (hb : b ∈ canonical_query_string (some q)) :
    formUntouched b = true ∨ b = 38 ∨ b = 61 ∨ b = 37 ∨ isUpperHexDigit b = true := by
  rw [canonical_query_string_some] at hb
  rcases mem_ampJoin_decompose hb with rfl | ⟨t, ht, hbt⟩
  · exact Or.inr (Or.inl rfl)
  · rcases List.mem_map.mp ht with ⟨p, _, rfl⟩
    rcases List.mem_append.mp hbt with h | h
    · rcases mem_byteSerialize_decompose h with h | h | h
      · exact Or.inl h
      · exact Or.inr (Or.inr (Or.inr (Or.inl h)))
      · exact Or.inr (Or.inr (Or.inr (Or.inr h)))
    · rcases List.mem_cons.mp h with rfl | h
      · exact Or.inr (Or.inr (Or.inl rfl))
      · rcases mem_byteSerialize_decompose h with h | h | h
        · exact Or.inl h
        · exact Or.inr (Or.inr (Or.inr (Or.inl h)))
        · exact Or.inr (Or.inr (Or.inr (Or.inr h)))

/-! # Claim theorems -/

/-- C1 (code bug): the claim says a missing secret key yields a typed,
recoverable `MissingCredentials` error; the code instead calls
`credentials.unwrap().secret.unwrap()`, which panics.  In the embedding a
panic is `none`: whenever the attached credentials carry no secret (or no
credentials are attached at all), `derived_signing_key` and `signature`
produce no value — there is no error value and no signature. -/
theorem c1_missing_secret_panics (sha : List Nat → List Nat)
    (hm : List Nat → List Nat → List Nat) (s : SigV4)
    (h : s.credentials.bind Credentials.secret = none) :
    derived_signing_key hm s = none ∧ signature sha hm s = none := by
  rcases hc : s.credentials with _ | c
  · constructor
    · simp [derived_signing_key, hc]
    · simp [signature, derived_signing_key, hc]
  · rcases hsec : c.secret with _ | sec
    · constructor
      · simp [derived_signing_key, hc, hsec]
      · simp [signature, derived_signing_key, hc, hsec]
    · exfalso
      rw [hc] at h
      simp only [Option.some_bind] at h
      rw [hsec] at h
      cases h

/-- C1's panic at a concrete signing context carrying no credentials. -/
theorem c1_missing_secret_panics_witness :
    derived_signing_key dummyHm emptyCtx = none ∧
      signature dummySha dummyHm emptyCtx = none :=
  c1_missing_secret_panics dummySha dummyHm emptyCtx rfl

/-- C2 (code bug): `signed_headers` pushes the `;` separator *before* the
`authorization` skip, so whenever `authorization` is not the first key in
sorted order the output carries a doubled (or trailing) semicolon instead
of being the semicolon-joined key list.  With headers `Abc`,
`Authorization`, `Xyz` the code yields `"abc;;xyz"` (claimed: `"abc;xyz"`),
and with `Abc`, `Authorization` it yields `"abc;"` (claimed: `"abc"`).
`canonical_headers` does perform the exclusion cleanly. -/
theorem c2_signed_headers_doubled_semicolon :
    signed_headers
        (append_header
          (append_header (append_header [] (strBytes "Abc") (strBytes "1"))
            (strBytes "Authorization") (strBytes "2"))
          (strBytes "Xyz") (strBytes "3")) = strBytes "abc;;xyz"
    ∧ signed_headers
        (append_header (append_header [] (strBytes "Abc") (strBytes "1"))
          (strBytes "Authorization") (strBytes "2")) = strBytes "abc;"
    ∧ canonical_headers
        (append_header
          (append_header (append_header [] (strBytes "Abc") (strBytes "1"))
            (strBytes "Authorization") (strBytes "2"))
          (strBytes "Xyz") (strBytes "3")) = strBytes "abc:1\nxyz:3\n" := by
  decide

/-- C3 counterexample: `*` (byte 42) lies outside the claim's unreserved
set (ALPHA / DIGIT / `-` / `.` / `_` / `~`), yet the encoder leaves it
literal: canonicalizing `"*=*"` keeps both stars unencoded. -/
theorem c3_star_not_encoded :
    claimUnreserved 42 = false
    ∧ canonical_query_string (some (strBytes "*=*")) = strBytes "*=*" := by
  decide

/-- C3 (amended): keys and values are percent-encoded with rust-url's
form-urlencoded set — space becomes `%20` (never `+`; no raw space and no
`+` can appear in the output), every byte outside ALPHA / DIGIT / `*` /
`-` / `.` / `_` is percent-encoded (so `~` is encoded while `*` stays
literal), and the claimed example holds: every output byte is an untouched
byte, a separator `&`/`=`, or part of a `%XX` escape. -/
theorem c3_amended_form_encoding :
    canonical_query_string (some (strBytes "a space=woo woo&x-amz-header=foo"))
        = strBytes "a%20space=woo%20woo&x-amz-header=foo"
    ∧ byteSerialize [32] = strBytes "%20"
    ∧ formUntouched 126 = false
    ∧ byteSerialize [126] = strBytes "%7E"
    ∧ (∀ q b, b ∈ canonical_query_string (some q) →
        formUntouched b = true ∨ b = 38 ∨ b = 61 ∨ b = 37 ∨ isUpperHexDigit b = true)
    ∧ (∀ q, 32 ∉ canonical_query_string (some q) ∧ 43 ∉ canonical_query_string (some q)) := by
  refine ⟨by decide, by decide, by decide, by decide,
    fun q b hb => canon_byte_classes hb, fun q => ⟨fun hb => ?_, fun hb => ?_⟩⟩
  · rcases canon_byte_classes hb with h | h | h | h | h <;> revert h <;> decide
  · rcases canon_byte_classes hb with h | h | h | h | h <;> revert h <;> decide

/-- C4 counterexample: canonicalization is not idempotent — re-canonicalizing
the canonical form of `"a b=c"` re-encodes the `%` of `%20` and yields
`"a%2520b=c"`, not `"a%20b=c"`. -/
theorem c4_not_idempotent :
    canonical_query_string (some (canonical_query_string (some (strBytes "a b=c"))))
      ≠ canonical_query_string (some (strBytes "a b=c")) := by
  decide

/-- C4 (amended): canonicalization is idempotent on every query string
whose canonical form contains no percent-escape (no byte `%`), and
canonicalizing `"foo=&bar=&baz="` yields `"bar=&baz=&foo="`. -/
theorem c4_amended_idempotent :
    (∀ q, 37 ∉ canonical_query_string (some q) →
      canonical_query_string (some (canonical_query_string (some q))) =
        canonical_query_string (some q))
    ∧ canonical_query_string (some (strBytes "foo=&bar=&baz=")) = strBytes "bar=&baz=&foo=" :=
  ⟨fun _ h => canon_idempotent h, by decide⟩

/-- C5: the canonical query sort is a stable sort by key under byte-wise
lexicographic comparison — for every raw query string, filtering the
sorted parameter list by any key returns those parameters in their
original relative order, the sorted list's keys ascend, and
`"q.options=abc&q=xyz&q=mno"` canonicalizes to
`"q=xyz&q=mno&q.options=abc"`. -/
theorem c5_stable_sort_by_key :
    (∀ q k, (sortQP (parseQuery q)).filter (fun p => decide (p.k = k))
        = (parseQuery q).filter (fun p => decide (p.k = k)))
    ∧ (∀ q, keyAscending (sortQP (parseQuery q)))
    ∧ canonical_query_string (some (strBytes "q.options=abc&q=xyz&q=mno"))
        = strBytes "q=xyz&q=mno&q.options=abc" :=
  ⟨fun q k => sortQP_filter_key (parseQuery q) k,
    fun q => sortQP_ascending (parseQuery q), by decide⟩

/-- C6: credential precedence — for every file content and environment, a
set `AWS_ACCESS_KEY_ID` / `AWS_SECRET_ACCESS_KEY` unconditionally
overwrites the corresponding field, and an unset one leaves the field at
the file-derived value (absent when the file contributes none). -/
theorem c6_credential_precedence (envHome envProfile : Option String)
    (conf : Option Ini) (envKey envSecret : Option String) :
    ((Credentials.new envHome envProfile).load conf envKey envSecret).key
        = (match envKey with
           | some k => some k
           | none => fileValue conf (get_default_profile envProfile) "aws_access_key_id")
    ∧ ((Credentials.new envHome envProfile).load conf envKey envSecret).secret
        = (match envSecret with
           | some s => some s
           | none => fileValue conf (get_default_profile envProfile) "aws_secret_access_key") := by
  rcases conf with _ | ini
  · rcases envKey with _ | ek <;> rcases envSecret with _ | es <;>
      simp [Credentials.load, Credentials.new, fileValue]
  · rcases h1 : List.lookup (get_default_profile envProfile) ini with _ | sec
    · rcases envKey with _ | ek <;> rcases envSecret with _ | es <;>
        simp [Credentials.load, Credentials.new, fileValue, h1]
    · rcases h2 : List.lookup "aws_access_key_id" sec with _ | ak <;>
        rcases h3 : List.lookup "aws_secret_access_key" sec with _ | sk <;>
          rcases envKey with _ | ek <;> rcases envSecret with _ | es <;>
            simp [Credentials.load, Credentials.new, fileValue, h1, h2, h3]

/-- C7: the header store lowercases every inserted name, appends (never
overwrites) the value to that key's sequence, leaves other keys untouched,
and preserves both invariants — all keys lowercase and keys strictly
ascending (the iteration order); `header()` inserts through exactly this
operation. -/
theorem c7_header_store_invariants (m : HeaderMap) (key value : List Nat)
    (hs : keysSorted m) (hl : keysLower m) :
    keysSorted (append_header m key value)
    ∧ keysLower (append_header m key value)
    ∧ mapFind (key.map asciiLowerByte) (append_header m key value)
        = some ((mapFind (key.map asciiLowerByte) m).getD [] ++ [value])
    ∧ (∀ k', k' ≠ key.map asciiLowerByte →
        mapFind k' (append_header m key value) = mapFind k' m)
    ∧ (∀ s : SigV4, s.headers = m →
        (s.header { key := key, value := value }).headers = append_header m key value
        ∧ (SigV4.date s).headers = append_header m (strBytes "X-Amz-Date") s.dateLong) := by
  refine ⟨append_header_sorted hs, append_header_keysLower hl,
    mapFind_insert_self hs, fun k' hk => mapFind_insert_other hk, ?_⟩
  intro s hsm
  constructor
  · rw [SigV4.header, hsm]
  · rw [SigV4.date, hsm]

/-- C7 at a concrete store: inserting `Test` twice accumulates both values
under the lowercased key and keeps the invariants. -/
theorem c7_header_store_invariants_witness :
    keysSorted (append_header [(strBytes "abc", [strBytes "0"])] (strBytes "Test") (strBytes "v"))
    ∧ keysLower (append_header [(strBytes "abc", [strBytes "0"])] (strBytes "Test") (strBytes "v"))
    ∧ mapFind ((strBytes "Test").map asciiLowerByte)
        (append_header [(strBytes "abc", [strBytes "0"])] (strBytes "Test") (strBytes "v"))
        = some ((mapFind ((strBytes "Test").map asciiLowerByte)
            [(strBytes "abc", [strBytes "0"])]).getD [] ++ [strBytes "v"])
    ∧ (∀ k', k' ≠ (strBytes "Test").map asciiLowerByte →
        mapFind k' (append_header [(strBytes "abc", [strBytes "0"])] (strBytes "Test") (strBytes "v"))
          = mapFind k' [(strBytes "abc", [strBytes "0"])])
    ∧ (∀ s : SigV4, s.headers = [(strBytes "abc", [strBytes "0"])] →
        (s.header { key := strBytes "Test", value := strBytes "v" }).headers
          = append_header [(strBytes "abc", [strBytes "0"])] (strBytes "Test") (strBytes "v")
        ∧ (SigV4.date s).headers
          = append_header [(strBytes "abc", [strBytes "0"])] (strBytes "X-Amz-Date") s.dateLong) :=
  c7_header_store_invariants [(strBytes "abc", [strBytes "0"])]
    (strBytes "Test") (strBytes "v") (by simp [keysSorted])
    (by intro x hx; rcases List.mem_singleton.mp hx with rfl; decide)

/-- C8: a query token containing `=` is split only at the first `=` — the
key is everything before it and the value everything after, later `=`
bytes included — and a token with no `=` parses to that key with an empty
value; parsing never fails. -/
theorem c8_split_first_eq :
    (∀ k v, 61 ∉ k → parseToken (k ++ 61 :: v) = { k := k, v := v })
    ∧ (∀ t, 61 ∉ t → parseToken t = { k := t, v := [] }) :=
  ⟨fun _ _ hk => parseToken_append hk, fun _ ht => parseToken_no_eq ht⟩

/-- C9: with a present secret key, `signature()` produces the lowercase
hex encoding of HMAC-SHA256(derived signing key, signing string): exactly
64 bytes, each a lowercase hexadecimal digit (`hm` is the external
HMAC-SHA256, whose digests are 32 bytes). -/
theorem c9_signature_hex (sha : List Nat → List Nat)
    (hm : List Nat → List Nat → List Nat) (s : SigV4) (c : Credentials) (sec : String)
    (hc : s.credentials = some c) (hsec : c.secret = some sec)
    (hlen : ∀ k d, (hm k d).length = 32) :
    ∃ dk out, derived_signing_key hm s = some dk
      ∧ signature sha hm s = some out
      ∧ out = toHex (hm dk (signing_string sha s))
      ∧ out.length = 64
      ∧ ∀ b ∈ out, isLowerHexDigit b = true := by
  have hdk : derived_signing_key hm s =
      some (hm (hm (hm (hm (strBytes ("AWS4" ++ sec)) s.dateShort)
        (expand_string s.region)) (expand_string s.service)) (strBytes "aws4_request")) := by
    simp [derived_signing_key, hc, hsec]
  refine ⟨_, _, hdk, ?_, rfl, ?_, fun b hb => mem_toHex_isLowerHex hb⟩
  · rw [signature, hdk]
    rfl
  · rw [toHex_length, hlen]

/-- C9 at a concrete context and a 32-byte stand-in digest function. -/
theorem c9_signature_hex_witness :
    ∃ dk out, derived_signing_key dummyHm sampleCtx = some dk
      ∧ signature dummySha dummyHm sampleCtx = some out
      ∧ out = toHex (dummyHm dk (signing_string dummySha sampleCtx))
      ∧ out.length = 64
      ∧ ∀ b ∈ out, isLowerHexDigit b = true :=
  c9_signature_hex dummySha dummyHm sampleCtx sampleCreds "sek" rfl rfl
    (fun _ _ => rfl)

/-- C10: a set-but-empty query canonicalizes to `"="` (one parameter with
empty key and empty value), an unset query to the empty string, and a set
query never canonicalizes to the empty string. -/
theorem c10_empty_query :
    canonical_query_string (some []) = strBytes "="
    ∧ canonical_query_string none = []
    ∧ ∀ q, canonical_query_string (some q) ≠ [] :=
  ⟨by decide, rfl, fun q => canon_some_ne_nil q⟩

end Aws
